import Mathlib

/-!
Verification development for the rtl-sdr-snipper streaming capture pipeline.

The embedding follows the source:
* `src/main.rs` — `process` (event buffer / hysteresis policy),
  `estimate_interestingness`, `write_out`, `optimal_settings`,
  constants `FREQUENCY`, `SAMPLE_RATE`;
* `src/fft.rs` — `SimpleFft::process`, `generate_blackman_harris_window`.

Magnitudes are modelled as exact rationals; the one floating-point
operation whose special-value behaviour matters to the policy (the final
`high_estimate / low_estimate` division of two non-negative magnitudes,
and the comparison of the result against the threshold `3.0`) is modelled
by `fdiv` / `FVal.gtConst`, which implement the IEEE-754 rules for
division by zero (`x / 0 = +inf` for `x > 0`, `0 / 0 = NaN`, NaN compares
false) exactly; no rounding occurs in those rules.
-/

namespace Snipper

/-- Result class of the score division: a finite rational, an infinity, or
NaN, mirroring the `f32` values the Rust expression can produce. -/
inductive FVal where
  | fin (q : ℚ)
  | posInf
  | negInf
  | nan
deriving DecidableEq, Repr

/-- IEEE-754 division of two exactly-represented finite values, keeping
the exact quotient (the claims only depend on the special-value classes,
which rounding never changes). -/
def fdiv (a b : ℚ) : FVal :=
  if b ≠ 0 then .fin (a / b)
  else if 0 < a then .posInf
  else if a < 0 then .negInf
  else .nan

/-- IEEE-754 `>` comparison of a score against a finite constant:
`NaN > t` is `false`, `+inf > t` is `true`. Models Rust `f32`'s
`interestingness > 3.`. -/
def FVal.gtConst (v : FVal) (t : ℚ) : Bool :=
  match v with
  | .fin q => decide (t < q)
  | .posInf => true
  | .negInf => false
  | .nan => false

/-- The order-statistics part of `estimate_interestingness`
(src/main.rs lines 163-175): sort a copy of the magnitude spectrum
ascending, pick `sorted[len * 75 / 100]` and `sorted[len * 95 / 100]`,
return their quotient. -/
def scoreSpectrum (spectrum : List ℚ) : FVal :=
  let sorted := spectrum.mergeSort (fun a b => a ≤ b)
  let low_estimate := sorted.getD (sorted.length * 75 / 100) 0
  let high_estimate := sorted.getD (sorted.length * 95 / 100) 0
  fdiv high_estimate low_estimate

/-- Threshold `T_interesting` from `interestingness > 3.`
(src/main.rs line 110). -/
def T_interesting : ℚ := 3

/-! ## Event buffer (`process`, src/main.rs lines 100-145) -/

/-- Raw bytes of one sample block (`Box<[u8; DEFAULT_BUF_LENGTH]>`). -/
abbrev RawBlock := List Nat

/-- One buffered entry `(interesting_in_this_buf, buf)`: the per-block hit
count paired with the raw block. -/
abbrev Scored := Nat × RawBlock

/-- `gap` constant (src/main.rs line 117). -/
def gap : Nat := 15

/-- `currently_uninteresting` (src/main.rs lines 118-123): the buffer
holds more than `gap` entries and the most recent `gap` entries all have
hit count 0. The buffer list is oldest-first; `VecDeque::iter().rev()`
is modelled by `List.reverse`. -/
def currentlyUninteresting (buffer : List Scored) : Bool :=
  decide (buffer.length > gap) &&
    (buffer.reverse.take gap).all (fun p => p.1 == 0)

/-- The buffer mutation of one `process` iteration (src/main.rs lines
125-128): `pop_front` when `currently_uninteresting`, then `push_back`
of the new scored block. -/
def mutateBuffer (buffer : List Scored) (interestingInThisBuf : Nat)
    (buf : RawBlock) : List Scored :=
  (if currentlyUninteresting buffer then buffer.tail else buffer)
    ++ [(interestingInThisBuf, buf)]

/-- `interesting_events` (src/main.rs lines 130-133): number of buffered
entries with hit count > 1. -/
def interestingEvents (buffer : List Scored) : Nat :=
  (buffer.filter (fun p => decide (p.1 > 1))).length

/-- Result of one `process` iteration: the buffer afterwards, and the
sequence of raw blocks handed to `write_out` if a flush happened. -/
structure IngestResult where
  buffer : List Scored
  flushed : Option (List RawBlock)
deriving DecidableEq, Repr

/-- One iteration of the `process` loop body after scoring
(src/main.rs lines 117-143): evict when quiet, append, flush the whole
buffer to the sink and clear it when quiet and more than one buffered
entry is interesting. -/
def processIngest (buffer : List Scored) (interestingInThisBuf : Nat)
    (buf : RawBlock) : IngestResult :=
  let cu := currentlyUninteresting buffer
  let buffer2 := mutateBuffer buffer interestingInThisBuf buf
  if cu && decide (interestingEvents buffer2 > 1) then
    { buffer := [], flushed := some (buffer2.map Prod.snd) }
  else
    { buffer := buffer2, flushed := none }

/-- The byte stream `write_out` produces (src/main.rs lines 147-161):
each buffered raw block written in order with `write_all`, no framing
or header — plain concatenation. -/
def writeOutBytes (bufs : List RawBlock) : List Nat :=
  bufs.flatten

/-- Fold a sequence of `(hitCount, block)` inputs through the ingest
step, keeping only the buffer (the trajectory of the `process` loop's
buffer state). -/
def runIngest (buffer : List Scored) (ins : List (Nat × RawBlock)) :
    List Scored :=
  ins.foldl (fun b p => (processIngest b p.1 p.2).buffer) buffer

/-- True iff some step of the run flushes. -/
def runFlushes (buffer : List Scored) (ins : List (Nat × RawBlock)) :
    Bool :=
  match ins with
  | [] => false
  | p :: rest =>
    let r := processIngest buffer p.1 p.2
    r.flushed.isSome || runFlushes r.buffer rest

/-- Length of the buffer up to and including its last entry with a
nonzero hit count (0 when every entry has hit count 0); the buffer's
"non-quiet prefix", used to analyse the eviction policy. -/
def nzLen : List Scored → Nat
  | [] => 0
  | p :: rest => if nzLen rest = 0 ∧ p.1 = 0 then 0 else nzLen rest + 1

/-! ## Spectral analyzer (`SimpleFft`, src/fft.rs) -/

/-- `chunks_exact(2)` over the raw bytes (src/fft.rs lines 32-33): the
consecutive `(a, b)` byte pairs, any odd trailing byte dropped. -/
def iqPairs : List Nat → List (Nat × Nat)
  | a :: b :: rest => (a, b) :: iqPairs rest
  | _ => []

/-- `generate_blackman_harris_window` (src/fft.rs lines 49-58): for index
`i` in `[0, n)`, `x = TAU * i / (n - 1)` and weight
`0.35875 - 0.48829 cos x + 0.14128 cos 2x - 0.01168 cos 3x`. -/
noncomputable def generate_blackman_harris_window (n : Nat) : List ℝ :=
  (List.range n).map (fun (i : Nat) =>
    let x : ℝ := 2 * Real.pi * (i : ℝ) / ((n - 1 : Nat) : ℝ)
    0.35875 - 0.48829 * Real.cos x + 0.14128 * Real.cos (2 * x)
      - 0.01168 * Real.cos (3 * x))

/-- Modelled from the spec: the forward discrete Fourier transform that
the external `rustfft` crate's `Fft::process_with_scratch` applies
(src/fft.rs lines 43-44); the crate is not part of this repository, so
the transform is taken from the spec's words "Applies a forward discrete
Fourier transform of length `windowWidth`". Output bin `k` is
`∑_j x_j · exp(-2πi·j·k/n)`, in original bin order. -/
noncomputable def dft (xs : List ℂ) : List ℂ :=
  (List.range xs.length).map (fun (k : Nat) =>
    ∑ j ∈ Finset.range xs.length,
      xs.getD j 0 *
        Complex.exp (-(2 * Real.pi * Complex.I * (j : ℂ) * (k : ℂ)) / (xs.length : ℂ)))

/-- `SimpleFft::process` (src/fft.rs lines 25-46): convert each byte pair
to a centered unit-scaled complex sample `((a-128)/128, (b-128)/128)`,
multiply elementwise by the Blackman-Harris window (via `zip`), apply the
forward transform, and return each bin's Euclidean norm. `fftWidth` is
the `fft_width` the analyzer was constructed with. -/
noncomputable def SimpleFft.process (fftWidth : Nat) (chunk : List Nat) : List ℝ :=
  let samples := (iqPairs chunk).map (fun p =>
    ({ re := ((p.1 : ℝ) - 128) / 128, im := ((p.2 : ℝ) - 128) / 128 } : ℂ))
  let windowed := (samples.zip (generate_blackman_harris_window fftWidth)).map
    (fun cw => cw.1 * (cw.2 : ℂ))
  (dft windowed).map Complex.abs

/-! ## Radio settings and output naming (src/main.rs) -/

/-- `FREQUENCY` constant (src/main.rs line 12). -/
def FREQUENCY : Nat := 434200000

/-- `SAMPLE_RATE` constant (src/main.rs line 13). -/
def SAMPLE_RATE : Nat := 2880000

/-- `u32` wrap-around arithmetic. -/
def u32 (n : Nat) : Nat := n % 2 ^ 32

/-- `RadioConfig` (src/main.rs lines 210-213). -/
structure RadioConfig where
  capture_freq : Nat
  capture_rate : Nat
deriving DecidableEq, Repr

/-- `optimal_settings` (src/main.rs lines 217-230): the configuration the
device is then opened with (`config_sdr` is called with `capture_freq`
and `capture_rate`, src/main.rs lines 62-67). -/
def optimal_settings (freq rate : Nat) : RadioConfig :=
  let downsample := 1000000 / rate + 1
  let capture_rate := u32 (downsample * rate)
  let capture_freq := u32 (freq + capture_rate / 4)
  { capture_freq := capture_freq, capture_rate := capture_rate }

/-- The output file name built by `write_out` (src/main.rs lines 148-153):
the RFC3339 timestamp with each `:` replaced by `_`, then
`snipper_<now>_<FREQUENCY>_<SAMPLE_RATE>.cu8`. -/
def write_out_name (rfc3339 : String) : String :=
  let now := String.mk (rfc3339.data.map (fun ch => if ch = ':' then '_' else ch))
  "snipper_" ++ now ++ "_" ++ toString FREQUENCY ++ "_" ++ toString SAMPLE_RATE ++ ".cu8"

/-! ## Helper lemmas -/

/-- The code's `rev().take(gap).all(hit == 0)` test, stated as the spec
states it: more than 15 entries, and every entry among the most recent
15 (the last 15 of the oldest-first list) has hit count 0. -/
theorem currentlyUninteresting_iff (b : List Scored) :
    currentlyUninteresting b = true ↔
      (15 < b.length ∧ ∀ p ∈ b.drop (b.length - 15), p.1 = 0) := by
  unfold currentlyUninteresting gap
  rw [Bool.and_eq_true, decide_eq_true_iff, List.all_eq_true]
  constructor
  · rintro ⟨h1, h2⟩
    refine ⟨h1, fun p hp => ?_⟩
    have hp2 : p ∈ b.reverse.take 15 := by
      rw [List.take_reverse]
      exact List.mem_reverse.mpr hp
    simpa using h2 p hp2
  · rintro ⟨h1, h2⟩
    refine ⟨h1, fun p hp => ?_⟩
    rw [List.take_reverse] at hp
    rw [List.mem_reverse] at hp
    simpa using h2 p hp

theorem nzLen_le_length : ∀ b : List Scored, nzLen b ≤ b.length
  | [] => Nat.le_refl 0
  | p :: rest => by
    have := nzLen_le_length rest
    simp only [nzLen, List.length_cons]
    split
    · omega
    · omega

theorem nzLen_append_zero (b : List Scored) (blk : RawBlock) :
    nzLen (b ++ [(0, blk)]) = nzLen b := by
  induction b with
  | nil => simp [nzLen]
  | cons p rest ih => simp only [List.cons_append, nzLen, List.append_eq, ih]

theorem nzLen_tail_le (b : List Scored) : nzLen b.tail ≤ nzLen b := by
  cases b with
  | nil => simp
  | cons p rest =>
    simp only [List.tail_cons, nzLen]
    split
    · next h => omega
    · omega

/-- A nonzero-hit entry within the final `b.length - k` entries forces the
non-quiet prefix past position `k`. -/
theorem lt_nzLen_of_drop :
    ∀ (b : List Scored) (k : Nat), (∃ p ∈ b.drop k, p.1 ≠ 0) → k < nzLen b
  | [], k, h => by simp at h
  | q :: rest, 0, h => by
    simp only [List.drop_zero] at h
    obtain ⟨p, hp, hpne⟩ := h
    simp only [nzLen]
    split
    · next hcond =>
      rcases List.mem_cons.mp hp with rfl | hmem
      · exact absurd hcond.2 hpne
      · have := lt_nzLen_of_drop rest 0 ⟨p, hmem, hpne⟩
        omega
    · omega
  | q :: rest, k + 1, h => by
    simp only [List.drop_succ_cons] at h
    have := lt_nzLen_of_drop rest k h
    simp only [nzLen]
    split
    · next hcond => omega
    · omega

/-- When the quiet test fails, one `process` iteration neither evicts nor
flushes: the result is just the appended buffer. -/
theorem processIngest_of_not_quiet (b : List Scored) (h : Nat)
    (blk : RawBlock) (hcu : currentlyUninteresting b = false) :
    processIngest b h blk =
      { buffer := b ++ [(h, blk)], flushed := none } := by
  unfold processIngest mutateBuffer
  rw [hcu]
  simp

/-- One zero-hit ingest step preserves the non-quiet prefix bound and the
length bound of the sustained-quiet invariant. -/
theorem quietStep_invariant (N : Nat) (b : List Scored) (blk : RawBlock)
    (hnz : nzLen b ≤ N) (hlen : b.length ≤ max 16 (N + 15)) :
    nzLen (processIngest b 0 blk).buffer ≤ N ∧
      (processIngest b 0 blk).buffer.length ≤ max 16 (N + 15) := by
  have hmut : (processIngest b 0 blk).buffer = [] ∨
      (processIngest b 0 blk).buffer = mutateBuffer b 0 blk := by
    simp only [processIngest]
    split
    · exact Or.inl rfl
    · exact Or.inr rfl
  rcases hmut with hb | hb
  · rw [hb]
    simp [nzLen]
  · rw [hb]
    unfold mutateBuffer
    by_cases hcu : currentlyUninteresting b = true
    · rw [if_pos hcu]
      have hl := ((currentlyUninteresting_iff b).mp hcu).1
      constructor
      · calc nzLen (b.tail ++ [(0, blk)]) = nzLen b.tail :=
              nzLen_append_zero _ _
          _ ≤ nzLen b := nzLen_tail_le b
          _ ≤ N := hnz
      · rw [List.length_append, List.length_tail]
        simp only [List.length_singleton]
        omega
    · rw [if_neg hcu]
      constructor
      · rw [nzLen_append_zero]
        exact hnz
      · rw [List.length_append]
        simp only [List.length_singleton]
        have hnot : ¬(15 < b.length ∧ ∀ p ∈ b.drop (b.length - 15), p.1 = 0) :=
          fun hc => hcu ((currentlyUninteresting_iff b).mpr hc)
        by_cases hlen15 : 15 < b.length
        · push_neg at hnot
          have := lt_nzLen_of_drop b (b.length - 15) (hnot hlen15)
          omega
        · omega

/-- The sustained-quiet invariant along a whole run of zero-hit ingests. -/
theorem runIngest_quiet_bound (N : Nat) :
    ∀ (ins : List RawBlock) (b : List Scored), nzLen b ≤ N →
      b.length ≤ max 16 (N + 15) →
      nzLen (runIngest b (ins.map (fun k => ((0 : Nat), k)))) ≤ N ∧
        (runIngest b (ins.map (fun k => ((0 : Nat), k)))).length ≤ max 16 (N + 15)
  | [], _, h1, h2 => ⟨h1, h2⟩
  | blk :: rest, b, h1, h2 => by
    have step := quietStep_invariant N b blk h1 h2
    simpa [runIngest, List.foldl_cons] using
      runIngest_quiet_bound N rest (processIngest b 0 blk).buffer step.1 step.2

/-- Sorting the all-zero spectrum returns it unchanged. -/
theorem mergeSort_replicate_zero (n : Nat) :
    (List.replicate n (0 : ℚ)).mergeSort (fun a b => a ≤ b) =
      List.replicate n 0 := by
  have hp := List.mergeSort_perm (List.replicate n (0 : ℚ))
    (fun a b => decide (a ≤ b))
  rw [List.eq_replicate_iff]
  refine ⟨by simp [hp.length_eq], fun b hb => ?_⟩
  exact List.eq_of_mem_replicate (hp.mem_iff.mp hb)

/-- On an all-zero spectrum both percentile estimates are 0, and the
IEEE division `0.0 / 0.0` is NaN. -/
theorem scoreSpectrum_replicate_zero (n : Nat) :
    scoreSpectrum (List.replicate n (0 : ℚ)) = FVal.nan := by
  have hg : ∀ i, (List.replicate n (0 : ℚ)).getD i 0 = 0 := by
    intro i
    rcases Nat.lt_or_ge i n with h | h
    · rw [List.getD_eq_getElem _ _ (by simpa using h)]
      simp
    · rw [List.getD_eq_default _ _ (by simpa using h)]
  simp only [scoreSpectrum, mergeSort_replicate_zero, hg]
  simp [fdiv]

/-- `scoreSpectrum` written with the indices expressed over the input's
own length (the sorted copy has the same length). -/
theorem scoreSpectrum_eq (s : List ℚ) :
    scoreSpectrum s =
      fdiv ((s.mergeSort (fun a b => a ≤ b)).getD (s.length * 95 / 100) 0)
        ((s.mergeSort (fun a b => a ≤ b)).getD (s.length * 75 / 100) 0) := by
  simp only [scoreSpectrum, List.length_mergeSort]

/-- The integer index the code computes is the floor the spec describes. -/
theorem index_floor_95 (n : Nat) : n * 95 / 100 = ⌊(0.95 : ℚ) * n⌋₊ := by
  have h : (0.95 : ℚ) * n = ((95 * n : ℕ) : ℚ) / ((100 : ℕ) : ℚ) := by
    push_cast
    ring_nf
  rw [h, Nat.floor_div_nat, Nat.floor_natCast, Nat.mul_comm]

/-- The integer index the code computes is the floor the spec describes. -/
theorem index_floor_75 (n : Nat) : n * 75 / 100 = ⌊(0.75 : ℚ) * n⌋₊ := by
  have h : (0.75 : ℚ) * n = ((75 * n : ℕ) : ℚ) / ((100 : ℕ) : ℚ) := by
    push_cast
    ring_nf
  rw [h, Nat.floor_div_nat, Nat.floor_natCast, Nat.mul_comm]

/-- Exact division of two finite values is invariant under a positive
common factor, in every special-value class. -/
theorem fdiv_mul_left (c : ℚ) (hc : 0 < c) (a b : ℚ) :
    fdiv (c * a) (c * b) = fdiv a b := by
  unfold fdiv
  by_cases hb : b = 0
  · subst hb
    rw [mul_zero]
    have h1 : (0 < c * a) ↔ (0 < a) := by
      constructor <;> intro h <;> nlinarith
    have h2 : (c * a < 0) ↔ (a < 0) := by
      constructor <;> intro h <;> nlinarith
    simp only [ne_eq, not_true_eq_false, if_false, h1, h2]
  · have hcb : c * b ≠ 0 := mul_ne_zero hc.ne' hb
    simp only [ne_eq, hb, hcb, not_false_eq_true, if_true]
    congr 1
    rw [div_eq_div_iff hcb hb]
    ring

/-- Sorting commutes with a positive scaling of every magnitude. -/
theorem mergeSort_map_mul (s : List ℚ) (c : ℚ) (hc : 0 < c) :
    (s.map (fun x => c * x)).mergeSort (fun a b => a ≤ b) =
      (s.mergeSort (fun a b => a ≤ b)).map (fun x => c * x) := by
  exact List.eq_of_perm_of_sorted
    ((List.mergeSort_perm _ _).trans ((List.mergeSort_perm s _).map _).symm)
    (List.sorted_mergeSort' _)
    (List.Pairwise.map _ (fun a b h => mul_le_mul_of_nonneg_left h hc.le)
      (List.sorted_mergeSort' s))

/-- `getD` below the length commutes with scaling every entry. -/
theorem getD_map_mul (c : ℚ) (l : List ℚ) (i : Nat) (hi : i < l.length) :
    (l.map (fun x => c * x)).getD i 0 = c * l.getD i 0 := by
  rw [List.getD_eq_getElem _ _ (by simpa using hi), List.getElem_map,
    List.getD_eq_getElem _ _ hi]

/-- No run of at most 16 ingests starting from a short enough buffer can
flush: a flush needs more than 15 buffered entries beforehand, and each
ingest adds at most one. -/
theorem runFlushes_short : ∀ (ins : List (Nat × RawBlock)) (b : List Scored),
    ins.length + b.length ≤ 16 → runFlushes b ins = false
  | [], _, _ => rfl
  | p :: rest, b, hlen => by
    have hcu : currentlyUninteresting b = false := by
      rw [Bool.eq_false_iff]
      intro ht
      have h15 := ((currentlyUninteresting_iff b).mp ht).1
      simp only [List.length_cons] at hlen
      omega
    have hres := processIngest_of_not_quiet b p.1 p.2 hcu
    simp only [runFlushes, hres, Option.isSome_none, Bool.false_or]
    apply runFlushes_short rest
    simp only [List.length_append, List.length_singleton, List.length_nil,
      List.length_cons] at hlen ⊢
    omega

/-- `chunks_exact(2)` yields half as many pairs as bytes. -/
theorem iqPairs_length : ∀ l : List Nat, (iqPairs l).length = l.length / 2
  | [] => rfl
  | [_] => by simp [iqPairs]
  | _ :: _ :: rest => by
    simp only [iqPairs, List.length_cons, iqPairs_length rest]
    omega

theorem length_generate_blackman_harris_window (n : Nat) :
    (generate_blackman_harris_window n).length = n := by
  simp only [generate_blackman_harris_window, List.length_map,
    List.length_range]

theorem length_dft (xs : List ℂ) : (dft xs).length = xs.length := by
  simp only [dft, List.length_map, List.length_range]

/-! ## Claim theorems -/

/-- Claim C1, counterexample: with a pre-ingest buffer of 18 entries whose
most recent 15 all have hit count 0 and which holds exactly 2 entries with
hit count > 1, ingesting a zero-hit block flushes even though the number
of interesting entries (2, both before and after the mutation) does not
exceed `minEvents = 2`: the code's threshold is `> 1`, not `> 2`. -/
theorem claim1_counterexample :
    ((processIngest ((0, ([] : RawBlock)) :: (2, []) :: (2, []) ::
        List.replicate 15 (0, [])) 0 []).flushed.isSome = true) ∧
      interestingEvents (mutateBuffer ((0, ([] : RawBlock)) :: (2, []) ::
        (2, []) :: List.replicate 15 (0, [])) 0 []) = 2 ∧
      interestingEvents ((0, ([] : RawBlock)) :: (2, []) :: (2, []) ::
        List.replicate 15 (0, [])) = 2 := by
  decide

/-- Claim C1 as amended: a `process` iteration flushes exactly when the
buffer was quiet (more than 15 entries and the most recent 15 all with
hit count 0) AND more than ONE buffered entry (counted after the
evict-and-append mutation) has hit count > 1; when no flush happens the
iteration's only effect is the buffer mutation itself. -/
theorem claim1_flush_iff (b : List Scored) (h : Nat) (blk : RawBlock) :
    ((processIngest b h blk).flushed.isSome = true ↔
        ((15 < b.length ∧ ∀ p ∈ b.drop (b.length - 15), p.1 = 0) ∧
          1 < interestingEvents (mutateBuffer b h blk))) ∧
      ((processIngest b h blk).flushed = none →
        (processIngest b h blk).buffer = mutateBuffer b h blk) := by
  simp only [processIngest]
  split
  · next hcond =>
    rw [Bool.and_eq_true, decide_eq_true_iff] at hcond
    refine ⟨?_, ?_⟩
    · simp only [Option.isSome_some, true_iff]
      exact ⟨(currentlyUninteresting_iff b).mp hcond.1, hcond.2⟩
    · intro hnone
      cases hnone
  · next hcond =>
    refine ⟨⟨fun hfalse => absurd hfalse Bool.false_ne_true, ?_⟩,
      fun _ => rfl⟩
    rintro ⟨hq, hie⟩
    exact (hcond (by
      rw [Bool.and_eq_true, decide_eq_true_iff]
      exact ⟨(currentlyUninteresting_iff b).mpr hq, hie⟩)).elim

/-- Claim C1 witness: the amended theorem applied at an empty buffer,
where no flush happens and the result is the plain appended buffer. -/
theorem claim1_flush_iff_witness :
    (processIngest [] 0 []).buffer = mutateBuffer [] 0 [] :=
  (claim1_flush_iff [] 0 []).2 rfl

/-- Claim C2, counterexample: the all-zero spectrum of the code's
window width 128 scores NaN (`0.0 / 0.0`), not positive infinity, and
NaN compares false against `T_interesting`, so the window is NOT
classified as interesting. -/
theorem claim2_counterexample :
    scoreSpectrum (List.replicate 128 (0 : ℚ)) ≠ FVal.posInf ∧
      (scoreSpectrum (List.replicate 128 (0 : ℚ))).gtConst T_interesting
        = false := by
  have h := scoreSpectrum_replicate_zero 128
  refine ⟨?_, by rw [h]; rfl⟩
  rw [h]
  intro hx
  cases hx

/-- Claim C2 as amended: an all-zero spectrum makes both percentile
estimates 0, so the score is the IEEE quotient `0.0 / 0.0 = NaN` (not
`+inf`), and `NaN > 3.0` is false, so the window is never classified as
interesting (the hit count is not incremented). -/
theorem claim2_allzero_nan (n : Nat) (_hn : 2 ≤ n) :
    scoreSpectrum (List.replicate n (0 : ℚ)) = FVal.nan ∧
      (scoreSpectrum (List.replicate n (0 : ℚ))).gtConst T_interesting
        = false := by
  have h := scoreSpectrum_replicate_zero n
  exact ⟨h, by rw [h]; rfl⟩

/-- Claim C2 witness: the amended theorem at window width 128. -/
theorem claim2_allzero_nan_witness :
    scoreSpectrum (List.replicate 128 (0 : ℚ)) = FVal.nan ∧
      (scoreSpectrum (List.replicate 128 (0 : ℚ))).gtConst T_interesting
        = false :=
  claim2_allzero_nan 128 (by decide)

/-- Claim C3, counterexample: the device is configured with capture
frequency 434920000 Hz (`FREQUENCY + capture_rate / 4`, offset tuning),
but the output name contains the nominal `FREQUENCY` 434200000, so the
name does not encode the frequency the radio was configured with. -/
theorem claim3_counterexample :
    (optimal_settings FREQUENCY SAMPLE_RATE).capture_freq = 434920000 ∧
      write_out_name "2024-01-02T03:04:05Z" =
        "snipper_2024-01-02T03_04_05Z_434200000_2880000.cu8" ∧
      write_out_name "2024-01-02T03:04:05Z" ≠
        "snipper_2024-01-02T03_04_05Z_434920000_2880000.cu8" := by
  decide

/-- Claim C3 as amended: every flushed output file is named
`snipper_<RFC3339 timestamp with colons replaced by underscores>_
<FREQUENCY>_<SAMPLE_RATE>.cu8` using the nominal tuning constants; the
configured capture sample rate happens to equal `SAMPLE_RATE`
(downsample = 1), but the configured capture frequency is
`FREQUENCY + capture_rate / 4`, which differs from the frequency in the
file name. -/
theorem claim3_name_nominal (rfc3339 : String) :
    (write_out_name rfc3339).data =
      "snipper_".data ++
        rfc3339.data.map (fun ch => if ch = ':' then '_' else ch) ++
        "_434200000_2880000.cu8".data ∧
      (optimal_settings FREQUENCY SAMPLE_RATE).capture_rate = SAMPLE_RATE ∧
      (optimal_settings FREQUENCY SAMPLE_RATE).capture_freq =
        FREQUENCY + (optimal_settings FREQUENCY SAMPLE_RATE).capture_rate / 4 ∧
      (optimal_settings FREQUENCY SAMPLE_RATE).capture_freq ≠ FREQUENCY := by
  refine ⟨?_, by decide, by decide, by decide⟩
  simp only [write_out_name, String.data_append, List.append_assoc]
  apply congrArg
  apply congrArg
  decide

set_option maxRecDepth 10000

/-- Claim C4, counterexample: after the reachable two-block burst
`[(2,_), (2,_)]`, ingesting 16 consecutive zero-hit blocks leaves the
buffer at length 17, not capped at 16. -/
theorem claim4_counterexample :
    (runIngest (runIngest [] [(2, ([] : RawBlock)), (2, [])])
        (List.replicate 16 ((0 : Nat), ([] : RawBlock)))).length = 17 ∧
      ¬(runIngest (runIngest [] [(2, ([] : RawBlock)), (2, [])])
          (List.replicate 16 ((0 : Nat), ([] : RawBlock)))).length ≤ 16 := by
  decide

/-- Claim C4 as amended: from any starting buffer state, any number of
consecutive zero-hit ingests never grows the buffer beyond
`max 16 (starting length + 15)`: eviction kicks in once the most recent
15 entries are all zero-hit, so the cap 16 as stated holds when the
quiet run starts from an empty buffer (e.g. right after a flush), while
after an unflushed burst the buffer plateaus at its starting length plus
15. -/
theorem claim4_quiet_cap (b : List Scored) (blocks : List RawBlock) :
    (runIngest b (blocks.map (fun k => ((0 : Nat), k)))).length ≤
      max 16 (b.length + 15) := by
  exact (runIngest_quiet_bound b.length blocks b (nzLen_le_length b)
    (le_max_of_le_right (Nat.le_add_right _ _))).2

/-- Claim C5 (confirmed): the oldest entry is evicted, before the new
scored block is appended at the tail, exactly when the buffer holds more
than 15 entries and the most recent 15 all have hit count 0; otherwise
nothing is removed and the new block is still appended at the tail. -/
theorem claim5_evict_iff (b : List Scored) (h : Nat) (blk : RawBlock) :
    (((15 < b.length ∧ ∀ p ∈ b.drop (b.length - 15), p.1 = 0) →
        mutateBuffer b h blk = b.tail ++ [(h, blk)])) ∧
      ((¬(15 < b.length ∧ ∀ p ∈ b.drop (b.length - 15), p.1 = 0)) →
        mutateBuffer b h blk = b ++ [(h, blk)]) := by
  constructor
  · intro hc
    unfold mutateBuffer
    rw [if_pos ((currentlyUninteresting_iff b).mpr hc)]
  · intro hc
    unfold mutateBuffer
    rw [if_neg (fun ht => hc ((currentlyUninteresting_iff b).mp ht))]

/-- Claim C5 witness: a 16-entry all-quiet buffer evicts its head while
appending the new block. -/
theorem claim5_evict_iff_witness :
    mutateBuffer (List.replicate 16 ((0 : Nat), ([] : RawBlock))) 5 [7] =
      (List.replicate 16 ((0 : Nat), ([] : RawBlock))).tail ++ [(5, [7])] :=
  (claim5_evict_iff (List.replicate 16 ((0 : Nat), ([] : RawBlock))) 5 [7]).1
    ⟨by decide, by decide⟩

/-- Claim C6 (confirmed): for a spectrum of length `n ≥ 2` the score is
`sorted[floor(0.95 n)] / sorted[floor(0.75 n)]` for an ascending sorted
copy of the magnitudes; the integer indices the code computes coincide
with those floors. -/
theorem claim6_percentile_ratio (s : List ℚ) (_h2 : 2 ≤ s.length) :
    ∃ sorted : List ℚ, sorted.Perm s ∧ sorted.Sorted (· ≤ ·) ∧
      s.length * 95 / 100 = ⌊(0.95 : ℚ) * s.length⌋₊ ∧
      s.length * 75 / 100 = ⌊(0.75 : ℚ) * s.length⌋₊ ∧
      scoreSpectrum s =
        fdiv (sorted.getD (⌊(0.95 : ℚ) * s.length⌋₊) 0)
          (sorted.getD (⌊(0.75 : ℚ) * s.length⌋₊) 0) := by
  refine ⟨s.mergeSort (fun a b => a ≤ b), List.mergeSort_perm s _,
    List.sorted_mergeSort' s, index_floor_95 s.length,
    index_floor_75 s.length, ?_⟩
  rw [← index_floor_95, ← index_floor_75]
  exact scoreSpectrum_eq s

/-- Claim C6 witness: the theorem applied to the concrete spectrum
`[0, 1]`. -/
theorem claim6_percentile_ratio_witness :
    ∃ sorted : List ℚ, sorted.Perm [0, 1] ∧ sorted.Sorted (· ≤ ·) ∧
      ([(0 : ℚ), 1] : List ℚ).length * 95 / 100 =
        ⌊(0.95 : ℚ) * ([(0 : ℚ), 1] : List ℚ).length⌋₊ ∧
      ([(0 : ℚ), 1] : List ℚ).length * 75 / 100 =
        ⌊(0.75 : ℚ) * ([(0 : ℚ), 1] : List ℚ).length⌋₊ ∧
      scoreSpectrum [0, 1] =
        fdiv (sorted.getD (⌊(0.95 : ℚ) * ([(0 : ℚ), 1] : List ℚ).length⌋₊) 0)
          (sorted.getD (⌊(0.75 : ℚ) * ([(0 : ℚ), 1] : List ℚ).length⌋₊) 0) :=
  claim6_percentile_ratio [0, 1] (by decide)

/-- Claim C7 (confirmed): when a flush happens, the blocks handed to the
sink are exactly the buffered raw blocks in buffer (capture) order, the
bytes written are their concatenation with no framing, and the buffer is
empty immediately afterwards. -/
theorem claim7_flush_payload (b : List Scored) (h : Nat) (blk : RawBlock)
    (out : List RawBlock)
    (hf : (processIngest b h blk).flushed = some out) :
    out = (mutateBuffer b h blk).map Prod.snd ∧
      writeOutBytes out = ((mutateBuffer b h blk).map Prod.snd).flatten ∧
      (processIngest b h blk).buffer = [] := by
  simp only [processIngest] at hf ⊢
  split at hf
  · next hcond =>
    rw [if_pos hcond]
    obtain rfl : (mutateBuffer b h blk).map Prod.snd = out :=
      Option.some.inj hf
    exact ⟨rfl, rfl, rfl⟩
  · cases hf

/-- Claim C7 witness: the theorem at a concrete 18-entry quiet buffer
with two interesting entries, whose ingest flushes all 18 blocks. -/
theorem claim7_flush_payload_witness :
    List.replicate 18 ([] : RawBlock) =
        (mutateBuffer ((0, ([] : RawBlock)) :: (2, []) :: (2, []) ::
          List.replicate 15 (0, [])) 0 []).map Prod.snd ∧
      writeOutBytes (List.replicate 18 ([] : RawBlock)) =
        ((mutateBuffer ((0, ([] : RawBlock)) :: (2, []) :: (2, []) ::
          List.replicate 15 (0, [])) 0 []).map Prod.snd).flatten ∧
      (processIngest ((0, ([] : RawBlock)) :: (2, []) :: (2, []) ::
        List.replicate 15 (0, [])) 0 []).buffer = [] :=
  claim7_flush_payload ((0, ([] : RawBlock)) :: (2, []) :: (2, []) ::
    List.replicate 15 (0, [])) 0 [] (List.replicate 18 []) (by decide)

/-- Claim C8 (confirmed): for an analyzer of width `w ≥ 2` and a block of
exactly `2 * w` bytes, the produced spectrum has exactly `w` magnitudes,
one per transformed bin in bin order, and every magnitude is
non-negative. -/
theorem claim8_spectrum_shape (w : Nat) (chunk : List Nat) (_hw : 2 ≤ w)
    (hlen : chunk.length = 2 * w) :
    (SimpleFft.process w chunk).length = w ∧
      ∀ m ∈ SimpleFft.process w chunk, 0 ≤ m := by
  constructor
  · simp only [SimpleFft.process, List.length_map, length_dft,
      List.length_zip, iqPairs_length,
      length_generate_blackman_harris_window, hlen]
    omega
  · intro m hm
    simp only [SimpleFft.process, List.mem_map] at hm
    obtain ⟨z, _, rfl⟩ := hm
    exact Complex.abs.nonneg z

/-- Claim C8 witness: the theorem at width 2 on a silent 4-byte block. -/
theorem claim8_spectrum_shape_witness :
    (SimpleFft.process 2 [128, 128, 128, 128]).length = 2 ∧
      ∀ m ∈ SimpleFft.process 2 [128, 128, 128, 128], 0 ≤ m :=
  claim8_spectrum_shape 2 [128, 128, 128, 128] (by decide) (by decide)

/-- Claim C9 (confirmed, in the exact-arithmetic model of the
magnitudes): scaling every magnitude by a positive constant leaves the
score unchanged — the scaled sorted copy is the sorted copy scaled, and
the ratio of two scaled percentile estimates is the original ratio in
every special-value class. -/
theorem claim9_scale_invariant (s : List ℚ) (h2 : 2 ≤ s.length) (c : ℚ)
    (hc : 0 < c) :
    scoreSpectrum (s.map (fun x => c * x)) = scoreSpectrum s := by
  rw [scoreSpectrum_eq, scoreSpectrum_eq, List.length_map,
    mergeSort_map_mul s c hc]
  have hlen : (s.mergeSort (fun a b => a ≤ b)).length = s.length :=
    List.length_mergeSort s
  have h95 : s.length * 95 / 100 < s.length := by omega
  have h75 : s.length * 75 / 100 < s.length := by omega
  rw [getD_map_mul c _ _ (by rw [hlen]; exact h95),
    getD_map_mul c _ _ (by rw [hlen]; exact h75)]
  exact fdiv_mul_left c hc _ _

/-- Claim C9 witness: the theorem at the spectrum `[0, 1]` scaled by 2. -/
theorem claim9_scale_invariant_witness :
    scoreSpectrum (([(0 : ℚ), 1] : List ℚ).map (fun x => 2 * x)) =
      scoreSpectrum [0, 1] :=
  claim9_scale_invariant [0, 1] (by decide) 2 (by decide)

/-- Claim C10 (confirmed): a flush can only happen with more than 15
pre-ingest entries, so every flushed payload holds at least 16 raw
blocks; and starting from an empty buffer no run of at most 16 ingests
can flush. -/
theorem claim10_flush_lower_bound :
    (∀ (b : List Scored) (h : Nat) (blk : RawBlock) (out : List RawBlock),
        (processIngest b h blk).flushed = some out → 16 ≤ out.length) ∧
      (∀ ins : List (Nat × RawBlock), ins.length ≤ 16 →
        runFlushes [] ins = false) := by
  constructor
  · intro b h blk out hf
    simp only [processIngest] at hf
    split at hf
    · next hcond =>
      rw [Bool.and_eq_true] at hcond
      have hq := ((currentlyUninteresting_iff b).mp hcond.1).1
      obtain rfl : (mutateBuffer b h blk).map Prod.snd = out :=
        Option.some.inj hf
      rw [List.length_map]
      unfold mutateBuffer
      rw [if_pos hcond.1, List.length_append, List.length_tail]
      simp only [List.length_singleton]
      omega
    · cases hf
  · intro ins hins
    exact runFlushes_short ins [] (by simpa using hins)

/-- Claim C10 witness: the flushing 18-entry example yields an 18-block
payload, and the empty run never flushes. -/
theorem claim10_flush_lower_bound_witness :
    16 ≤ (List.replicate 18 ([] : RawBlock)).length ∧
      runFlushes [] [] = false :=
  ⟨claim10_flush_lower_bound.1 ((0, ([] : RawBlock)) :: (2, []) :: (2, []) ::
      List.replicate 15 (0, [])) 0 [] (List.replicate 18 []) (by decide),
    claim10_flush_lower_bound.2 [] (by decide)⟩

end Snipper
